import Mathlib

/-!
Verification development for the Talaash search engine core
(`search_engine/search_index.py`).  The Python class `BigramIndex` is shallowly
embedded: Python `dict`s become association lists (first matching key wins, new
keys are appended, matching Python's insertion-ordered dicts), Python `set`s
become duplicate-free lists in insertion order (CPython sets iterate in an
unspecified, hash-table order; insertion order is one faithful realization of
that unspecified order, and for the concrete inputs used below it coincides
with CPython's actual iteration order), and strings become lists of
characters (`Str`).  Lowercasing is modelled for ASCII, which covers every
character the claims exercise.
-/

abbrev Str := List Char

/-- Uppercase/lowercase ASCII letter pairs, used to model Python `str.lower()`
on the ASCII range. -/
def upperLower : List (Char × Char) :=
  [('A', 'a'), ('B', 'b'), ('C', 'c'), ('D', 'd'), ('E', 'e'), ('F', 'f'),
   ('G', 'g'), ('H', 'h'), ('I', 'i'), ('J', 'j'), ('K', 'k'), ('L', 'l'),
   ('M', 'm'), ('N', 'n'), ('O', 'o'), ('P', 'p'), ('Q', 'q'), ('R', 'r'),
   ('S', 's'), ('T', 't'), ('U', 'u'), ('V', 'v'), ('W', 'w'), ('X', 'x'),
   ('Y', 'y'), ('Z', 'z')]

/-- The uppercase ASCII letters. -/
def upperChars : Str := upperLower.map Prod.fst

/-- Model of Python `str.lower()` at the character level (ASCII). -/
def pyCharLower (c : Char) : Char :=
  match upperLower.find? (fun p => p.1 == c) with
  | some p => p.2
  | none => c

/-- Model of Python `str.lower()`. -/
def pyLower (s : Str) : Str := s.map pyCharLower

/-- Characters Python `str.split()` (no argument) treats as whitespace. -/
def isPyWs (c : Char) : Bool :=
  c == ' ' || c == '\t' || c == '\n' || c == '\r' || c == '\x0b' || c == '\x0c'

/-- Accumulator pass behind `splitWs`; `acc` holds the (reversed) current
token. -/
def splitWsAux : Str → Str → List Str
  | [], acc => if acc = [] then [] else [acc.reverse]
  | c :: rest, acc =>
    if isPyWs c then
      if acc = [] then splitWsAux rest [] else acc.reverse :: splitWsAux rest []
    else splitWsAux rest (c :: acc)

/-- Model of Python `str.split()` with no argument: split on whitespace runs,
dropping empty pieces. -/
def splitWs (s : Str) : List Str := splitWsAux s []

/-- Whether the first list is a prefix of the second (Boolean). -/
def isPre : Str → Str → Bool
  | [], _ => true
  | _ :: _, [] => false
  | a :: as, b :: bs => a == b && isPre as bs

/-- Scanner behind `pySplitSep`: cut at each leftmost non-overlapping
occurrence of `sep`; `acc` holds the (reversed) current piece. -/
def splitSepAux (sep : Str) : Str → Str → List Str
  | [], acc => [acc.reverse]
  | c :: rest, acc =>
    if h : sep ≠ [] ∧ isPre sep (c :: rest) = true then
      acc.reverse :: splitSepAux sep ((c :: rest).drop sep.length) []
    else
      splitSepAux sep rest (c :: acc)
termination_by s _ => s.length
decreasing_by
  · simp only [List.length_drop, List.length_cons]
    have hlen : 0 < sep.length := List.length_pos.mpr h.1
    omega
  · simp only [List.length_cons]
    omega

/-- Model of Python `s.split(sep)` for a non-empty separator: leftmost
non-overlapping occurrences; the empty string yields `[""]`. -/
def pySplitSep (s sep : Str) : List Str := splitSepAux sep s []

/-- Model of `joined = sep.join(pieces)`. -/
def joinSep (sep : Str) : List Str → Str
  | [] => []
  | [t] => t
  | t :: ts => t ++ sep ++ joinSep sep ts

/-- All length-2 windows of a list of characters, as in
`for i in range(len(s) - 1): s[i:i + 2]`. -/
def adjPairs : Str → List Str
  | a :: b :: rest => [a, b] :: adjPairs (b :: rest)
  | _ => []

/-- Fuel-indexed matcher behind `globMatch`. -/
def globAux : Nat → Str → Str → Bool
  | _, [], w => w.isEmpty
  | 0, _ :: _, _ => false
  | fuel + 1, p :: ps, w =>
    if p = '*' then
      match w with
      | [] => globAux fuel ps []
      | _ :: cs => globAux fuel ps w || globAux fuel (p :: ps) cs
    else
      match w with
      | [] => false
      | c :: cs => p == c && globAux fuel ps cs

/-- Model of `re.match("^" + pattern.replace("*", ".*") + "$", w)` is not
`None`, for patterns whose non-`*` characters carry no regular-expression
meaning (every claim below only exercises such patterns): each `*` matches any
sequence of characters, every other pattern character must match literally,
and the match is anchored at both ends. -/
def globMatch (p w : Str) : Bool := globAux (p.length + w.length) p w

/-- Model of Python dict lookup on an association list: first matching key
wins (keys are unique in every reachable state). -/
def pyLookup {κ α : Type} [DecidableEq κ] : List (κ × α) → κ → Option α
  | [], _ => none
  | kv :: rest, k => if kv.1 = k then some kv.2 else pyLookup rest k

/-- Lookup in a dict whose values are Python sets (modelled as lists),
defaulting to the empty set: models both `d.get(k, set())` and reading
`d[k]` on a `defaultdict(set)`. -/
def lookupD {κ α : Type} [DecidableEq κ] (d : List (κ × List α)) (k : κ) : List α :=
  (pyLookup d k).getD []

/-- The keys of a modelled dict, in insertion order. -/
def dictKeys {κ α : Type} (d : List (κ × α)) : List κ := d.map Prod.fst

/-- Model of Python `set.add`: sets are duplicate-free lists, new elements are
appended (one faithful realization of CPython's unspecified iteration
order). -/
def setAdd {α : Type} [DecidableEq α] (s : List α) (a : α) : List α :=
  if a ∈ s then s else s ++ [a]

/-- Model of `d[k].add(a)` on a `defaultdict(set)`: update the entry for `k`
in place, or append a fresh singleton entry. -/
def dictAddTo {κ α : Type} [DecidableEq κ] [DecidableEq α] :
    List (κ × List α) → κ → α → List (κ × List α)
  | [], k, a => [(k, [a])]
  | kv :: rest, k, a =>
    if kv.1 = k then (kv.1, setAdd kv.2 a) :: rest else kv :: dictAddTo rest k a

/-- Model of `d[k] = v` on a plain dict: overwrite in place or append. -/
def dictSet {κ α : Type} [DecidableEq κ] : List (κ × α) → κ → α → List (κ × α)
  | [], k, v => [(k, v)]
  | kv :: rest, k, v =>
    if kv.1 = k then (k, v) :: rest else kv :: dictSet rest k v

/-- Default punctuation characters from `load_punctuations`' fallback branch
(the string `.,;:!?()[]{}"'`~@#$%^&*-_=+<>/\|`); the claims are settled
against this documented built-in configuration. -/
def defaultPunctuations : Str :=
  ['.', ',', ';', ':', '!', '?', '(', ')', '[', ']', Char.ofNat 123,
   Char.ofNat 125, Char.ofNat 34, Char.ofNat 39, Char.ofNat 96, '~', '@', '#',
   '$', '%', '^', '&', '*', '-', '_', '=', '+', '<', '>', '/', Char.ofNat 92,
   '|']

/-- Default stopwords from `load_stopwords`' fallback branch. -/
def defaultStopwords : List Str :=
  ["a", "an", "the", "and", "or", "but", "if", "because", "as", "what",
   "which", "this", "that", "these", "those", "then", "just", "so", "than",
   "such", "both", "through", "about", "for", "is", "of", "while", "during",
   "to"].map String.toList

/-- State of the Python `BigramIndex` object: `index` maps bigrams to sets of
words, `word_docs` maps words to sets of document ids, `doc_stats` maps
document ids to `(total_words, unique_words)`. -/
structure BigramIndex where
  index : List (Str × List Str)
  word_docs : List (Str × List Nat)
  doc_stats : List (Nat × (Nat × Nat))

/-- The freshly constructed index (no snapshot files present). -/
def emptyIndex : BigramIndex := { index := [], word_docs := [], doc_stats := [] }

/-- Model of `BigramIndex.clean_and_tokenize`: replace punctuation by spaces,
lowercase, split on whitespace, drop stopwords. -/
def clean_and_tokenize (text : Str) : List Str :=
  (splitWs (pyLower (text.map (fun c => if c ∈ defaultPunctuations then ' ' else c)))).filter
    (fun t => decide (t ∉ defaultStopwords))

/-- The boundary-wrapped bigrams of a word: all length-2 windows of
`"$" + word + "$"`. -/
def bigrams (w : Str) : List Str := adjPairs ('$' :: (w ++ ['$']))

/-- Model of `BigramIndex.add_document`: record document statistics, then for
each token insert `doc_id` into its posting set and register the token under
each of its boundary bigrams (a single pass over the tokens updating both
maps, as in the source loop). -/
def add_document (b : BigramIndex) (doc_id : Nat) (text : Str) : BigramIndex :=
  { word_docs :=
      ((clean_and_tokenize text).foldl
        (fun st w =>
          (dictAddTo st.1 w doc_id,
           (bigrams w).foldl (fun ix bg => dictAddTo ix bg w) st.2))
        (b.word_docs, b.index)).1,
    index :=
      ((clean_and_tokenize text).foldl
        (fun st w =>
          (dictAddTo st.1 w doc_id,
           (bigrams w).foldl (fun ix bg => dictAddTo ix bg w) st.2))
        (b.word_docs, b.index)).2,
    doc_stats :=
      dictSet b.doc_stats doc_id
        ((clean_and_tokenize text).length, (clean_and_tokenize text).dedup.length) }

/-- Ingest a corpus: one `add_document(id, text)` call per record, starting
from the fresh index (the ingestion adapter supplies `(id, title + " " +
body)` pairs). -/
def buildIndex (docs : List (Nat × Str)) : BigramIndex :=
  docs.foldl (fun b p => add_document b p.1 p.2) emptyIndex

/-- Index states reachable from the fresh index through `add_document`
calls. -/
inductive Built : BigramIndex → Prop where
  | base : Built emptyIndex
  | step (b : BigramIndex) (doc_id : Nat) (text : Str) :
      Built b → Built (add_document b doc_id text)

/-- Model of `BigramIndex.intersect`: `list(set(lst1) & set(lst2))`, whose
element order the source leaves to set iteration; realized as the elements of
`lst1` (deduplicated) that also occur in `lst2`. -/
def intersect (lst1 lst2 : List Nat) : List Nat :=
  lst1.dedup.filter (fun x => decide (x ∈ lst2))

/-- Model of `BigramIndex.union`: `list(set(lst1) | set(lst2))` up to the
unspecified set iteration order. -/
def union (lst1 lst2 : List Nat) : List Nat := (lst1 ++ lst2).dedup

/-- Model of Python `sorted` on a list of document ids. -/
def pySort (l : List Nat) : List Nat := List.insertionSort (· ≤ ·) l

/-- The separator `" and "`. -/
def sepAnd : Str := " and ".toList

/-- The separator `" or "`. -/
def sepOr : Str := " or ".toList

/-- The keyword loop of `type1_query`: `result` starts empty with `first`
set; a keyword missing from `word_docs` aborts with `None` (the source's
early `return []`), otherwise the first keyword seeds `result` and each later
keyword intersects into it. -/
def type1Loop (b : BigramIndex) : List Str → List Nat → Bool → Option (List Nat)
  | [], result, _ => some result
  | kw :: rest, result, first =>
    match pyLookup b.word_docs kw with
    | some postings =>
        if first then type1Loop b rest postings false
        else type1Loop b rest (intersect result postings) false
    | none => none

/-- Model of `BigramIndex.type1_query`: split the lowercased query on
`" and "`, run the keyword loop, and return the sorted result (empty on
abort). -/
def type1_query (b : BigramIndex) (query : Str) : List Nat :=
  match type1Loop b (pySplitSep (pyLower query) sepAnd) [] true with
  | none => []
  | some result => pySort result

/-- Model of `BigramIndex.type2_query`: split the lowercased query on
`" or "`, union the posting sets of the keywords present in the index, and
sort. -/
def type2_query (b : BigramIndex) (query : Str) : List Nat :=
  pySort ((pySplitSep (pyLower query) sepOr).foldl
    (fun result kw =>
      match pyLookup b.word_docs kw with
      | some postings => postings.foldl setAdd result
      | none => result)
    [])

/-- Split a pattern at its first `*`, as `pattern.split('*', 1)` does when a
`*` is present. -/
def splitFirstStar : Str → Str × Str
  | [] => ([], [])
  | c :: rest =>
    if c = '*' then ([], rest)
    else (c :: (splitFirstStar rest).1, (splitFirstStar rest).2)

/-- One candidate-narrowing loop of `wildcard_search`: starting from `None`,
take the token set of the first bigram and intersect with each later one. -/
def bigramIntersection (b : BigramIndex) (bgs : List Str) : Option (List Str) :=
  bgs.foldl
    (fun cand bg =>
      match cand with
      | none => some (lookupD b.index bg)
      | some c => some (c.filter (fun w => decide (w ∈ lookupD b.index bg))))
    none

/-- The prefix side of `wildcard_search`: candidates from the bigrams of
`"$" + prefix` when the prefix is non-empty, otherwise `None`. -/
def preCandidates (b : BigramIndex) (pre : Str) : Option (List Str) :=
  if pre ≠ [] then bigramIntersection b (adjPairs ('$' :: pre)) else none

/-- The combination step of `wildcard_search` inside the `if suffix:` block:
`if candidates is None: candidates = suffix_candidates; elif suffix_candidates
is not None: candidates &= suffix_candidates`. -/
def combineCandidates : Option (List Str) → Option (List Str) → Option (List Str)
  | none, sc => sc
  | some c, some sc => some (c.filter (fun w => decide (w ∈ sc)))
  | some c, none => some c

/-- Candidate computation of `wildcard_search` for the split pattern. -/
def wildcardCandidates (b : BigramIndex) (pre suf : Str) : Option (List Str) :=
  if suf ≠ [] then
    combineCandidates (preCandidates b pre) (bigramIntersection b (adjPairs (suf ++ ['$'])))
  else preCandidates b pre

/-- Model of `BigramIndex.wildcard_search`: require a `*`; split the
lowercased pattern at the first `*`; narrow candidates through the bigram
index; `if not candidates: return []` (both `None` and the empty set are
falsy); filter the candidates with the anchored regex built from the original
(non-lowercased) pattern; union the posting sets of the survivors and
sort. -/
def wildcard_search (b : BigramIndex) (pattern : Str) : List Nat :=
  if '*' ∈ pattern then
    match wildcardCandidates b (splitFirstStar (pyLower pattern)).1
        (splitFirstStar (pyLower pattern)).2 with
    | none => []
    | some cands =>
      if cands = [] then []
      else
        pySort
          (((cands.filter (fun w => globMatch pattern w)).foldl
            (fun acc w => (lookupD b.word_docs w).foldl setAdd acc)) [])
  else []

/-- Model of `BigramIndex.type3_query`. -/
def type3_query (b : BigramIndex) (pattern : Str) : List Nat :=
  wildcard_search b pattern

/-- Model of `BigramIndex.process_query`: normalize the query text, rejoin the
tokens with `" and "` / `" or "` for type1/type2, pass the raw text through
for type3, and return `[]` on any other tag. -/
def process_query (b : BigramIndex) (query_type : Str) (query_text : Str) : List Nat :=
  if query_type = "type1".toList then
    type1_query b
      (if ' ' ∈ joinSep [' '] (clean_and_tokenize query_text) then
        joinSep sepAnd (splitWs (joinSep [' '] (clean_and_tokenize query_text)))
      else joinSep [' '] (clean_and_tokenize query_text))
  else if query_type = "type2".toList then
    type2_query b
      (if ' ' ∈ joinSep [' '] (clean_and_tokenize query_text) then
        joinSep sepOr (splitWs (joinSep [' '] (clean_and_tokenize query_text)))
      else joinSep [' '] (clean_and_tokenize query_text))
  else if query_type = "type3".toList then
    type3_query b query_text
  else []

/-- The word-postings artifact written by `save_index_to_files`:
`{k: list(v) for k, v in self.word_docs.items()}` — each set is written out as
the array of its elements in iteration order, with no sorting applied. -/
def save_index_words (b : BigramIndex) : List (Str × List Nat) :=
  b.word_docs.map (fun kv => (kv.1, kv.2))

/-- The bigram-postings artifact written by `save_index_to_files`:
`{k: list(v) for k, v in self.index.items()}`. -/
def save_index_bigrams (b : BigramIndex) : List (Str × List Str) :=
  b.index.map (fun kv => (kv.1, kv.2))

/-- The word side of `load_index_from_files`:
`{k: set(v) for k, v in word_docs_dict.items()}` — each array is read back as
a set, so duplicates collapse and order is immaterial. -/
def load_words (snap : List (Str × List Nat)) : List (Str × List Nat) :=
  snap.map (fun kv => (kv.1, kv.2.dedup))

/-- The bigram side of `load_index_from_files`. -/
def load_bigrams (snap : List (Str × List Str)) : List (Str × List Str) :=
  snap.map (fun kv => (kv.1, kv.2.dedup))

/-- Two lists enumerate the same set. -/
def SameMembers {α : Type} (l1 l2 : List α) : Prop := ∀ x, x ∈ l1 ↔ x ∈ l2

/-- Two modelled dicts-of-sets are logically equal: every key maps to the same
set of values. -/
def DictEquiv {α : Type} (d1 d2 : List (Str × List α)) : Prop :=
  ∀ k, SameMembers (lookupD d1 k) (lookupD d2 k)

/-- The cross-index invariant of the spec: every token appearing in any
bigram's posting set is a key of the inverted index. -/
def BigramTokensIndexed (b : BigramIndex) : Prop :=
  ∀ bg w, w ∈ lookupD b.index bg → w ∈ dictKeys b.word_docs

/-! ### Character-level lemmas -/

theorem pyCharLower_eq_of_not_upper {c : Char} (h : c ∉ upperChars) :
    pyCharLower c = c := by
  unfold pyCharLower
  have hfind : upperLower.find? (fun p => p.1 == c) = none := by
    rw [List.find?_eq_none]
    intro p hp
    simp only [beq_iff_eq]
    intro hpc
    exact h (hpc ▸ List.mem_map_of_mem Prod.fst hp)
  rw [hfind]

theorem pyCharLower_not_upper (c : Char) : pyCharLower c ∉ upperChars := by
  unfold pyCharLower
  cases hfind : upperLower.find? (fun p => p.1 == c) with
  | none =>
    intro hmem
    obtain ⟨p, hp, hpc⟩ := List.mem_map.mp hmem
    have := List.find?_eq_none.mp hfind p hp
    simp only [beq_iff_eq] at this
    exact this hpc
  | some p =>
    have hp : p ∈ upperLower := List.mem_of_find?_eq_some hfind
    revert hp
    have : ∀ q ∈ upperLower, q.2 ∉ upperChars := by decide
    exact this p

theorem pyCharLower_idem (c : Char) :
    pyCharLower (pyCharLower c) = pyCharLower c :=
  pyCharLower_eq_of_not_upper (pyCharLower_not_upper c)

theorem pyCharLower_ne_of_upper {c : Char} (h : c ∈ upperChars) :
    pyCharLower c ≠ c := by
  revert h
  have : ∀ c ∈ upperChars, pyCharLower c ≠ c := by decide
  exact this c

theorem pyCharLower_not_punct {c : Char} (h : c ∉ defaultPunctuations) :
    pyCharLower c ∉ defaultPunctuations := by
  unfold pyCharLower
  cases hfind : upperLower.find? (fun p => p.1 == c) with
  | none => exact h
  | some p =>
    have hp : p ∈ upperLower := List.mem_of_find?_eq_some hfind
    revert hp
    have : ∀ q ∈ upperLower, q.2 ∉ defaultPunctuations := by decide
    exact this p

theorem pyLower_fixed {s : Str} (h : ∀ c ∈ s, pyCharLower c = c) :
    pyLower s = s := by
  induction s with
  | nil => rfl
  | cons c rest ih =>
    simp only [pyLower, List.map_cons]
    rw [h c (List.mem_cons_self c rest)]
    have := ih (fun c hc => h c (List.mem_cons_of_mem _ hc))
    simp only [pyLower] at this
    rw [this]

/-! ### Dict and set lemmas -/

theorem mem_setAdd {α : Type} [DecidableEq α] {s : List α} {a x : α} :
    x ∈ setAdd s a ↔ x ∈ s ∨ x = a := by
  unfold setAdd
  split
  · constructor
    · exact fun h => Or.inl h
    · rintro (h | rfl)
      · exact h
      · assumption
  · simp [List.mem_append]

theorem setAdd_nodup {α : Type} [DecidableEq α] {s : List α} (h : s.Nodup) (a : α) :
    (setAdd s a).Nodup := by
  unfold setAdd
  split
  · exact h
  · rename_i hmem
    simpa [List.nodup_append] using ⟨h, hmem⟩

theorem lookupD_dictAddTo {κ α : Type} [DecidableEq κ] [DecidableEq α]
    (d : List (κ × List α)) (k k' : κ) (a : α) :
    lookupD (dictAddTo d k a) k' =
      if k = k' then setAdd (lookupD d k') a else lookupD d k' := by
  induction d with
  | nil =>
    by_cases h : k = k'
    · subst h; simp [dictAddTo, lookupD, pyLookup, setAdd]
    · simp [dictAddTo, lookupD, pyLookup, h]
  | cons kv rest ih =>
    by_cases hk : kv.1 = k
    · subst hk
      by_cases hk' : kv.1 = k'
      · subst hk'
        simp [dictAddTo, lookupD, pyLookup]
      · simp [dictAddTo, lookupD, pyLookup, hk', if_neg hk']
    · by_cases hk' : kv.1 = k'
      · subst hk'
        have hkk : k ≠ kv.1 := fun h => hk h.symm
        simp [dictAddTo, lookupD, pyLookup, hk, hkk]
      · simp only [dictAddTo, if_neg hk]
        simp only [lookupD, pyLookup, if_neg hk']
        exact ih

theorem mem_dictKeys_dictAddTo {κ α : Type} [DecidableEq κ] [DecidableEq α]
    {d : List (κ × List α)} {k k' : κ} {a : α} :
    k' ∈ dictKeys (dictAddTo d k a) ↔ k' ∈ dictKeys d ∨ k' = k := by
  induction d with
  | nil =>
    simp only [dictAddTo, dictKeys, List.map_cons, List.map_nil,
      List.mem_singleton, List.not_mem_nil]
    tauto
  | cons kv rest ih =>
    by_cases hk : kv.1 = k
    · simp only [dictAddTo, if_pos hk, dictKeys, List.map_cons, List.mem_cons]
      rw [hk]
      tauto
    · simp only [dictAddTo, if_neg hk, dictKeys, List.map_cons, List.mem_cons]
      simp only [dictKeys] at ih
      rw [ih]
      tauto

theorem dictKeys_nodup_dictAddTo {κ α : Type} [DecidableEq κ] [DecidableEq α]
    {d : List (κ × List α)} (h : (dictKeys d).Nodup) (k : κ) (a : α) :
    (dictKeys (dictAddTo d k a)).Nodup := by
  induction d with
  | nil => simp [dictAddTo, dictKeys]
  | cons kv rest ih =>
    simp only [dictKeys, List.map_cons, List.nodup_cons] at h
    by_cases hk : kv.1 = k
    · subst hk
      simpa [dictAddTo, dictKeys, List.nodup_cons] using h
    · simp only [dictAddTo, if_neg hk, dictKeys, List.map_cons, List.nodup_cons]
      refine ⟨?_, ih h.2⟩
      intro hmem
      rcases (mem_dictKeys_dictAddTo).mp hmem with hm | hm
      · exact h.1 hm
      · exact hk hm

theorem vals_nodup_dictAddTo {κ α : Type} [DecidableEq κ] [DecidableEq α]
    {d : List (κ × List α)} (h : ∀ kv ∈ d, kv.2.Nodup) (k : κ) (a : α) :
    ∀ kv ∈ dictAddTo d k a, kv.2.Nodup := by
  induction d with
  | nil =>
    intro kv hkv
    simp only [dictAddTo, List.mem_singleton] at hkv
    subst hkv
    simp
  | cons kv0 rest ih =>
    intro kv hkv
    by_cases hk : kv0.1 = k
    · simp only [dictAddTo, if_pos hk, List.mem_cons] at hkv
      rcases hkv with rfl | hkv
      · exact setAdd_nodup (h kv0 (List.mem_cons_self _ _)) a
      · exact h kv (List.mem_cons_of_mem _ hkv)
    · simp only [dictAddTo, if_neg hk, List.mem_cons] at hkv
      rcases hkv with rfl | hkv
      · exact h kv (List.mem_cons_self _ _)
      · exact ih (fun q hq => h q (List.mem_cons_of_mem _ hq)) kv hkv

theorem lookupD_eq_of_mem {κ α : Type} [DecidableEq κ]
    {d : List (κ × List α)} (hnd : (dictKeys d).Nodup) {kv : κ × List α}
    (h : kv ∈ d) : lookupD d kv.1 = kv.2 := by
  induction d with
  | nil => cases h
  | cons kv0 rest ih =>
    simp only [dictKeys, List.map_cons, List.nodup_cons] at hnd
    rcases List.mem_cons.mp h with rfl | h
    · simp [lookupD, pyLookup]
    · have hne : kv0.1 ≠ kv.1 := by
        intro he
        exact hnd.1 (he ▸ List.mem_map_of_mem Prod.fst h)
      simp only [lookupD, pyLookup, if_neg hne]
      exact ih hnd.2 h

/-! ### The single token loop of `add_document`, split into its two maps -/

theorem pairFold_eq {α β γ : Type} (f : α → γ → α) (g : β → γ → β)
    (l : List γ) (p : α × β) :
    l.foldl (fun st w => (f st.1 w, g st.2 w)) p = (l.foldl f p.1, l.foldl g p.2) := by
  induction l generalizing p with
  | nil => rfl
  | cons w rest ih => simp only [List.foldl_cons, ih]

theorem add_document_word_docs (b : BigramIndex) (doc_id : Nat) (text : Str) :
    (add_document b doc_id text).word_docs =
      (clean_and_tokenize text).foldl (fun wd w => dictAddTo wd w doc_id) b.word_docs :=
  congrArg Prod.fst
    (pairFold_eq (fun wd w => dictAddTo wd w doc_id)
      (fun ix w => (bigrams w).foldl (fun ix bg => dictAddTo ix bg w) ix)
      (clean_and_tokenize text) (b.word_docs, b.index))

theorem add_document_index (b : BigramIndex) (doc_id : Nat) (text : Str) :
    (add_document b doc_id text).index =
      (clean_and_tokenize text).foldl
        (fun ix w => (bigrams w).foldl (fun ix bg => dictAddTo ix bg w) ix) b.index :=
  congrArg Prod.snd
    (pairFold_eq (fun wd w => dictAddTo wd w doc_id)
      (fun ix w => (bigrams w).foldl (fun ix bg => dictAddTo ix bg w) ix)
      (clean_and_tokenize text) (b.word_docs, b.index))

/-! ### Lemmas about the word-docs fold -/

theorem wdFold_lookupD_mem {words : List Str} {wd0 : List (Str × List Nat)}
    {i : Nat} {t : Str} {d : Nat} :
    d ∈ lookupD (words.foldl (fun wd w => dictAddTo wd w i) wd0) t ↔
      d ∈ lookupD wd0 t ∨ (t ∈ words ∧ d = i) := by
  induction words generalizing wd0 with
  | nil => simp
  | cons w rest ih =>
    simp only [List.foldl_cons, List.mem_cons]
    rw [ih]
    rw [lookupD_dictAddTo]
    by_cases hw : w = t
    · subst hw
      rw [if_pos rfl, mem_setAdd]
      simp only [eq_self_iff_true, true_or, true_and]
      tauto
    · rw [if_neg hw]
      constructor
      · rintro (h | ⟨ht, rfl⟩)
        · exact Or.inl h
        · exact Or.inr ⟨Or.inr ht, rfl⟩
      · rintro (h | ⟨(rfl | ht), rfl⟩)
        · exact Or.inl h
        · exact absurd rfl hw
        · exact Or.inr ⟨ht, rfl⟩

theorem wdFold_mem_keys {words : List Str} {wd0 : List (Str × List Nat)}
    {i : Nat} {t : Str} :
    t ∈ dictKeys (words.foldl (fun wd w => dictAddTo wd w i) wd0) ↔
      t ∈ dictKeys wd0 ∨ t ∈ words := by
  induction words generalizing wd0 with
  | nil => simp
  | cons w rest ih =>
    simp only [List.foldl_cons, List.mem_cons]
    rw [ih]
    rw [mem_dictKeys_dictAddTo]
    tauto

theorem wdFold_keys_nodup {words : List Str} {wd0 : List (Str × List Nat)}
    {i : Nat} (h : (dictKeys wd0).Nodup) :
    (dictKeys (words.foldl (fun wd w => dictAddTo wd w i) wd0)).Nodup := by
  induction words generalizing wd0 with
  | nil => exact h
  | cons w rest ih => exact ih (dictKeys_nodup_dictAddTo h w i)

theorem wdFold_vals_nodup {words : List Str} {wd0 : List (Str × List Nat)}
    {i : Nat} (h : ∀ kv ∈ wd0, kv.2.Nodup) :
    ∀ kv ∈ words.foldl (fun wd w => dictAddTo wd w i) wd0, kv.2.Nodup := by
  induction words generalizing wd0 with
  | nil => exact h
  | cons w rest ih => exact ih (vals_nodup_dictAddTo h w i)

/-! ### Lemmas about the bigram-index fold -/

theorem bgReg_lookupD_mono {bgs : List Str} {ix : List (Str × List Str)}
    {w x : Str} {k : Str} (h : x ∈ lookupD ix k) :
    x ∈ lookupD (bgs.foldl (fun ix bg => dictAddTo ix bg w) ix) k := by
  induction bgs generalizing ix with
  | nil => exact h
  | cons bg rest ih =>
    simp only [List.foldl_cons]
    apply ih
    rw [lookupD_dictAddTo]
    split
    · exact mem_setAdd.mpr (Or.inl h)
    · exact h

theorem bgReg_self {bgs : List Str} {ix : List (Str × List Str)} {w : Str}
    {bg : Str} (h : bg ∈ bgs) :
    w ∈ lookupD (bgs.foldl (fun ix bg => dictAddTo ix bg w) ix) bg := by
  induction bgs generalizing ix with
  | nil => cases h
  | cons bg0 rest ih =>
    simp only [List.foldl_cons]
    rcases List.mem_cons.mp h with rfl | h
    · apply bgReg_lookupD_mono
      rw [lookupD_dictAddTo, if_pos rfl]
      exact mem_setAdd.mpr (Or.inr rfl)
    · exact ih h

theorem bgReg_sub {bgs : List Str} {ix : List (Str × List Str)} {w x : Str}
    {k : Str}
    (h : x ∈ lookupD (bgs.foldl (fun ix bg => dictAddTo ix bg w) ix) k) :
    x ∈ lookupD ix k ∨ x = w := by
  induction bgs generalizing ix with
  | nil => exact Or.inl h
  | cons bg rest ih =>
    simp only [List.foldl_cons] at h
    rcases ih h with h' | h'
    · rw [lookupD_dictAddTo] at h'
      split at h'
      · rcases mem_setAdd.mp h' with h'' | h''
        · exact Or.inl h''
        · exact Or.inr h''
      · exact Or.inl h'
    · exact Or.inr h'

theorem ixFold_lookupD_mono {words : List Str} {ix0 : List (Str × List Str)}
    {x k : Str} (h : x ∈ lookupD ix0 k) :
    x ∈ lookupD
      (words.foldl (fun ix w => (bigrams w).foldl (fun ix bg => dictAddTo ix bg w) ix) ix0)
      k := by
  induction words generalizing ix0 with
  | nil => exact h
  | cons w rest ih =>
    simp only [List.foldl_cons]
    exact ih (bgReg_lookupD_mono h)

theorem ixFold_sub {words : List Str} {ix0 : List (Str × List Str)} {x k : Str}
    (h : x ∈ lookupD
      (words.foldl (fun ix w => (bigrams w).foldl (fun ix bg => dictAddTo ix bg w) ix) ix0)
      k) :
    x ∈ lookupD ix0 k ∨ x ∈ words := by
  induction words generalizing ix0 with
  | nil => exact Or.inl h
  | cons w rest ih =>
    simp only [List.foldl_cons] at h
    rcases ih h with h' | h'
    · rcases bgReg_sub h' with h'' | h''
      · exact Or.inl h''
      · exact Or.inr (h'' ▸ List.mem_cons_self w rest)
    · exact Or.inr (List.mem_cons_of_mem w h')

theorem ixFold_self {words : List Str} {ix0 : List (Str × List Str)} {w : Str}
    {bg : Str} (hw : w ∈ words) (hbg : bg ∈ bigrams w) :
    w ∈ lookupD
      (words.foldl (fun ix w => (bigrams w).foldl (fun ix bg => dictAddTo ix bg w) ix) ix0)
      bg := by
  induction words generalizing ix0 with
  | nil => cases hw
  | cons w0 rest ih =>
    simp only [List.foldl_cons]
    rcases List.mem_cons.mp hw with rfl | hw'
    · exact ixFold_lookupD_mono (bgReg_self hbg)
    · exact ih hw'

theorem ixFold_keys_nodup {words : List Str} {ix0 : List (Str × List Str)}
    (h : (dictKeys ix0).Nodup) :
    (dictKeys
      (words.foldl (fun ix w => (bigrams w).foldl (fun ix bg => dictAddTo ix bg w) ix) ix0)).Nodup := by
  induction words generalizing ix0 with
  | nil => exact h
  | cons w rest ih =>
    simp only [List.foldl_cons]
    apply ih
    clear ih
    induction bigrams w generalizing ix0 with
    | nil => exact h
    | cons bg bgrest ihb =>
      simp only [List.foldl_cons]
      exact ihb (dictKeys_nodup_dictAddTo h bg w)

theorem ixFold_vals_nodup {words : List Str} {ix0 : List (Str × List Str)}
    (h : ∀ kv ∈ ix0, kv.2.Nodup) :
    ∀ kv ∈
      words.foldl (fun ix w => (bigrams w).foldl (fun ix bg => dictAddTo ix bg w) ix) ix0,
      kv.2.Nodup := by
  induction words generalizing ix0 with
  | nil => exact h
  | cons w rest ih =>
    simp only [List.foldl_cons]
    apply ih
    clear ih
    induction bigrams w generalizing ix0 with
    | nil => exact h
    | cons bg bgrest ihb =>
      simp only [List.foldl_cons]
      exact ihb (vals_nodup_dictAddTo h bg w)

/-! ### Posting-membership characterization of `add_document` -/

theorem add_document_lookupD_mem {b : BigramIndex} {doc_id : Nat} {text : Str}
    {t : Str} {d : Nat} :
    d ∈ lookupD (add_document b doc_id text).word_docs t ↔
      d ∈ lookupD b.word_docs t ∨ (t ∈ clean_and_tokenize text ∧ d = doc_id) := by
  rw [add_document_word_docs]
  exact wdFold_lookupD_mem

theorem add_document_mem_keys {b : BigramIndex} {doc_id : Nat} {text : Str}
    {t : Str} :
    t ∈ dictKeys (add_document b doc_id text).word_docs ↔
      t ∈ dictKeys b.word_docs ∨ t ∈ clean_and_tokenize text := by
  rw [add_document_word_docs]
  exact wdFold_mem_keys

/-! ### Tokens produced by `splitWs` and `clean_and_tokenize` -/

theorem splitWsAux_tokens {s acc : Str} (hacc : ∀ c ∈ acc, isPyWs c = false)
    {t : Str} (ht : t ∈ splitWsAux s acc) :
    t ≠ [] ∧ ∀ c ∈ t, isPyWs c = false ∧ (c ∈ acc ∨ c ∈ s) := by
  induction s generalizing acc with
  | nil =>
    by_cases ha : acc = []
    · subst ha
      simp [splitWsAux] at ht
    · simp only [splitWsAux, if_neg ha, List.mem_singleton] at ht
      subst ht
      refine ⟨by simpa using ha, ?_⟩
      intro c hc
      rw [List.mem_reverse] at hc
      exact ⟨hacc c hc, Or.inl hc⟩
  | cons c0 rest ih =>
    simp only [splitWsAux] at ht
    by_cases hws : isPyWs c0
    · rw [if_pos hws] at ht
      by_cases ha : acc = []
      · rw [if_pos ha] at ht
        obtain ⟨hne, hall⟩ := ih (by simp) ht
        exact ⟨hne, fun c hc => ⟨(hall c hc).1, by
          rcases (hall c hc).2 with h | h
          · cases h
          · exact Or.inr (List.mem_cons_of_mem _ h)⟩⟩
      · rw [if_neg ha] at ht
        rcases List.mem_cons.mp ht with rfl | ht'
        · refine ⟨by simpa using ha, ?_⟩
          intro c hc
          rw [List.mem_reverse] at hc
          exact ⟨hacc c hc, Or.inl hc⟩
        · obtain ⟨hne, hall⟩ := ih (by simp) ht'
          exact ⟨hne, fun c hc => ⟨(hall c hc).1, by
            rcases (hall c hc).2 with h | h
            · cases h
            · exact Or.inr (List.mem_cons_of_mem _ h)⟩⟩
    · rw [if_neg hws] at ht
      have hacc' : ∀ c ∈ c0 :: acc, isPyWs c = false := by
        intro c hc
        rcases List.mem_cons.mp hc with rfl | hc
        · simpa using hws
        · exact hacc c hc
      obtain ⟨hne, hall⟩ := ih hacc' ht
      refine ⟨hne, fun c hc => ⟨(hall c hc).1, ?_⟩⟩
      rcases (hall c hc).2 with h | h
      · rcases List.mem_cons.mp h with rfl | h'
        · exact Or.inr (List.mem_cons_self _ _)
        · exact Or.inl h'
      · exact Or.inr (List.mem_cons_of_mem _ h)

theorem splitWs_tokens {s t : Str} (ht : t ∈ splitWs s) :
    t ≠ [] ∧ ∀ c ∈ t, isPyWs c = false ∧ c ∈ s := by
  obtain ⟨hne, hall⟩ := splitWsAux_tokens (by simp) ht
  refine ⟨hne, fun c hc => ⟨(hall c hc).1, ?_⟩⟩
  rcases (hall c hc).2 with h | h
  · cases h
  · exact h

/-- Well-formedness of the tokens `clean_and_tokenize` can produce: non-empty,
whitespace-free, fixed under lowercasing, and free of punctuation characters
(in particular free of `*`, `$` and of uppercase ASCII letters). -/
def TokenWF (w : Str) : Prop :=
  w ≠ [] ∧ ∀ c ∈ w, isPyWs c = false ∧ pyCharLower c = c ∧ c ∉ defaultPunctuations

theorem clean_and_tokenize_wf {text : Str} {t : Str}
    (ht : t ∈ clean_and_tokenize text) : TokenWF t := by
  unfold clean_and_tokenize at ht
  have ht' := List.mem_of_mem_filter ht
  obtain ⟨hne, hall⟩ := splitWs_tokens ht'
  refine ⟨hne, fun c hc => ?_⟩
  obtain ⟨hws, hmem⟩ := hall c hc
  obtain ⟨c', hc', rfl⟩ := List.mem_map.mp hmem
  obtain ⟨c0, _, rfl⟩ := List.mem_map.mp hc'
  refine ⟨hws, pyCharLower_idem _, ?_⟩
  apply pyCharLower_not_punct
  by_cases hp : c0 ∈ defaultPunctuations
  · rw [if_pos hp]
    decide
  · rw [if_neg hp]
    exact hp

/-! ### Bigram window lemmas -/

theorem adjPairs_cons₂ (a b : Char) (rest : Str) :
    adjPairs (a :: b :: rest) = [a, b] :: adjPairs (b :: rest) := rfl

theorem adjPairs_last_mem (l : Str) (a b : Char) :
    [a, b] ∈ adjPairs (l ++ [a, b]) := by
  induction l with
  | nil => simp [adjPairs]
  | cons c l' ih =>
    cases l' with
    | nil => simp [adjPairs]
    | cons d l'' =>
      rw [List.cons_append, List.cons_append, adjPairs_cons₂]
      rw [List.cons_append] at ih
      exact List.mem_cons_of_mem _ ih

theorem bigrams_head_mem (w0 : Char) (rest : Str) :
    ['$', w0] ∈ bigrams (w0 :: rest) := by
  unfold bigrams
  rw [List.cons_append, adjPairs_cons₂]
  exact List.mem_cons_self _ _

theorem bigrams_last_mem (w0 : Char) (mid : Str) (wl : Char) :
    [wl, '$'] ∈ bigrams (w0 :: mid ++ [wl]) := by
  unfold bigrams
  have : '$' :: (w0 :: mid ++ [wl] ++ ['$']) = ('$' :: w0 :: mid) ++ [wl, '$'] := by
    simp
  rw [this]
  exact adjPairs_last_mem _ wl '$'

/-! ### Glob matcher lemmas -/

theorem globAux_nil (n : Nat) (w : Str) : globAux n [] w = w.isEmpty := by
  cases n <;> rfl

theorem globAux_star_nil (fuel : Nat) (ps : Str) :
    globAux (fuel + 1) ('*' :: ps) [] = globAux fuel ps [] := rfl

theorem globAux_star_cons (fuel : Nat) (ps : Str) (c : Char) (cs : Str) :
    globAux (fuel + 1) ('*' :: ps) (c :: cs) =
      (globAux fuel ps (c :: cs) || globAux fuel ('*' :: ps) cs) := rfl

theorem globAux_lit_nil (fuel : Nat) {p : Char} (ps : Str) (h : p ≠ '*') :
    globAux (fuel + 1) (p :: ps) [] = false := by
  unfold globAux
  rw [if_neg h]

theorem globAux_lit_cons (fuel : Nat) {p : Char} (ps : Str) (c : Char) (cs : Str)
    (h : p ≠ '*') :
    globAux (fuel + 1) (p :: ps) (c :: cs) = (p == c && globAux fuel ps cs) := by
  conv_lhs => unfold globAux
  rw [if_neg h]

theorem globAux_fuel_irrel : ∀ {n m : Nat} {p w : Str},
    p.length + w.length ≤ n → p.length + w.length ≤ m → globAux n p w = globAux m p w := by
  intro n
  induction n with
  | zero =>
    intro m p w hn hm
    have hp : p = [] := by
      cases p with
      | nil => rfl
      | cons a as => simp at hn
    subst hp
    rw [globAux_nil, globAux_nil]
  | succ n ih =>
    intro m p w hn hm
    cases p with
    | nil => rw [globAux_nil, globAux_nil]
    | cons a ps =>
      cases m with
      | zero => simp at hm
      | succ m =>
        simp only [List.length_cons] at hn hm
        by_cases ha : a = '*'
        · subst ha
          cases w with
          | nil =>
            rw [globAux_star_nil, globAux_star_nil]
            exact ih (by simp at hn ⊢; omega) (by simp at hm ⊢; omega)
          | cons c cs =>
            simp only [List.length_cons] at hn hm
            rw [globAux_star_cons, globAux_star_cons]
            rw [@ih m ps (c :: cs) (by simp; omega) (by simp; omega)]
            rw [@ih m ('*' :: ps) cs (by simp; omega) (by simp; omega)]
        · cases w with
          | nil => rw [globAux_lit_nil _ _ ha, globAux_lit_nil _ _ ha]
          | cons c cs =>
            simp only [List.length_cons] at hn hm
            rw [globAux_lit_cons _ _ _ _ ha, globAux_lit_cons _ _ _ _ ha]
            rw [@ih m ps cs (by omega) (by omega)]

theorem globAux_eq_globMatch {n : Nat} {p w : Str}
    (hn : p.length + w.length ≤ n) : globAux n p w = globMatch p w :=
  globAux_fuel_irrel hn (le_refl _)

theorem globMatch_star_nilw (ps : Str) :
    globMatch ('*' :: ps) [] = globMatch ps [] := by
  unfold globMatch
  have e1 : ('*' :: ps).length + ([] : Str).length = (ps.length + ([] : Str).length) + 1 := by
    simp
  rw [e1, globAux_star_nil]

theorem globMatch_star_cons (ps : Str) (c : Char) (cs : Str) :
    globMatch ('*' :: ps) (c :: cs) =
      (globMatch ps (c :: cs) || globMatch ('*' :: ps) cs) := by
  unfold globMatch
  have e1 : ('*' :: ps).length + (c :: cs).length = (ps.length + (c :: cs).length) + 1 := by
    simp
    omega
  rw [e1, globAux_star_cons]
  rw [globAux_eq_globMatch (le_refl _)]
  rw [globAux_eq_globMatch (by simp; omega)]
  rfl

theorem globMatch_lit_cons {p : Char} (ps : Str) (c : Char) (cs : Str) (h : p ≠ '*') :
    globMatch (p :: ps) (c :: cs) = (p == c && globMatch ps cs) := by
  unfold globMatch
  have e1 : (p :: ps).length + (c :: cs).length = ((ps.length + cs.length) + 1) + 1 := by
    simp
    omega
  rw [e1, globAux_lit_cons _ _ _ _ h]
  rw [globAux_eq_globMatch (by omega)]
  rfl

theorem globMatch_literal_mem {p w : Str} (h : globMatch p w = true) :
    ∀ a ∈ p, a ≠ '*' → a ∈ w := by
  have haux : ∀ {n : Nat} {p w : Str}, globAux n p w = true →
      ∀ a ∈ p, a ≠ '*' → a ∈ w := by
    intro n
    induction n with
    | zero =>
      intro p w h a ha hne
      cases p with
      | nil => cases ha
      | cons b ps => simp [globAux] at h
    | succ n ih =>
      intro p w h a ha hne
      cases p with
      | nil => cases ha
      | cons b ps =>
        by_cases hb : b = '*'
        · subst hb
          cases w with
          | nil =>
            rw [globAux_star_nil] at h
            rcases List.mem_cons.mp ha with rfl | ha'
            · exact absurd rfl hne
            · exact ih h a ha' hne
          | cons c cs =>
            rw [globAux_star_cons] at h
            have h2 : globAux n ps (c :: cs) = true ∨ globAux n ('*' :: ps) cs = true := by
              simpa using h
            rcases h2 with h' | h'
            · rcases List.mem_cons.mp ha with rfl | ha'
              · exact absurd rfl hne
              · exact ih h' a ha' hne
            · exact List.mem_cons_of_mem c (ih h' a ha hne)
        · cases w with
          | nil =>
            rw [globAux_lit_nil _ _ hb] at h
            exact absurd h (by simp)
          | cons c cs =>
            rw [globAux_lit_cons _ _ _ _ hb] at h
            have h2 : b = c ∧ globAux n ps cs = true := by simpa using h
            rcases List.mem_cons.mp ha with rfl | ha'
            · exact h2.1 ▸ List.mem_cons_self c cs
            · exact List.mem_cons_of_mem c (ih h2.2 a ha' hne)
  exact haux h

theorem globMatch_star_of_suffix {ps cs : Str} (u : Str)
    (h : globMatch ps cs = true) : globMatch ('*' :: ps) (u ++ cs) = true := by
  induction u with
  | nil =>
    rw [List.nil_append]
    cases cs with
    | nil =>
      rw [globMatch_star_nilw]
      exact h
    | cons c cs' =>
      rw [globMatch_star_cons, h]
      rfl
  | cons a u' ih =>
    rw [List.cons_append, globMatch_star_cons, ih]
    simp

theorem globMatch_single {c : Char} (h : c ≠ '*') :
    globMatch [c] [c] = true := by
  rw [globMatch_lit_cons _ _ _ h]
  simp [globMatch, globAux]

/-! ### Sorting and set-fold membership -/

theorem pySort_sorted (l : List Nat) : List.Sorted (· ≤ ·) (pySort l) :=
  List.sorted_insertionSort (· ≤ ·) l

theorem mem_pySort {l : List Nat} {d : Nat} : d ∈ pySort l ↔ d ∈ l :=
  (List.perm_insertionSort (· ≤ ·) l).mem_iff

theorem mem_foldl_setAdd {α : Type} [DecidableEq α] {l acc : List α} {x : α} :
    x ∈ l.foldl setAdd acc ↔ x ∈ acc ∨ x ∈ l := by
  induction l generalizing acc with
  | nil => simp
  | cons a rest ih =>
    simp only [List.foldl_cons, List.mem_cons]
    rw [ih]
    rw [mem_setAdd]
    tauto

theorem mem_docFold {b : BigramIndex} {words : List Str} {acc : List Nat} {d : Nat} :
    d ∈ words.foldl (fun acc w => (lookupD b.word_docs w).foldl setAdd acc) acc ↔
      d ∈ acc ∨ ∃ w ∈ words, d ∈ lookupD b.word_docs w := by
  induction words generalizing acc with
  | nil => simp
  | cons w rest ih =>
    simp only [List.foldl_cons]
    rw [ih]
    rw [mem_foldl_setAdd]
    constructor
    · rintro ((h | h) | ⟨w', hw', hd⟩)
      · exact Or.inl h
      · exact Or.inr ⟨w, List.mem_cons_self _ _, h⟩
      · exact Or.inr ⟨w', List.mem_cons_of_mem _ hw', hd⟩
    · rintro (h | ⟨w', hw', hd⟩)
      · exact Or.inl (Or.inl h)
      · rcases List.mem_cons.mp hw' with rfl | hw''
        · exact Or.inl (Or.inr hd)
        · exact Or.inr ⟨w', hw'', hd⟩

theorem mem_intersect {l1 l2 : List Nat} {x : Nat} :
    x ∈ intersect l1 l2 ↔ x ∈ l1 ∧ x ∈ l2 := by
  unfold intersect
  rw [List.mem_filter]
  simp [List.mem_dedup]

/-! ### The reachable-state invariant -/

/-- Invariant of every index state reachable through `add_document`: keys of
both maps are unique, all posting sets are duplicate-free, every inverted-index
key is a well-formed token whose boundary bigrams all list it, and every token
listed under a bigram is itself well-formed. -/
def WFIndex (b : BigramIndex) : Prop :=
  (dictKeys b.word_docs).Nodup ∧
  (dictKeys b.index).Nodup ∧
  (∀ kv ∈ b.word_docs, kv.2.Nodup) ∧
  (∀ kv ∈ b.index, kv.2.Nodup) ∧
  (∀ w ∈ dictKeys b.word_docs, TokenWF w) ∧
  (∀ w ∈ dictKeys b.word_docs, ∀ bg ∈ bigrams w, w ∈ lookupD b.index bg) ∧
  (∀ bg w, w ∈ lookupD b.index bg → TokenWF w)

theorem wfIndex_empty : WFIndex emptyIndex := by
  refine ⟨?_, ?_, ?_, ?_, ?_, ?_, ?_⟩ <;>
    simp [emptyIndex, dictKeys, lookupD, pyLookup]

theorem wfIndex_add_document {b : BigramIndex} (hb : WFIndex b)
    (doc_id : Nat) (text : Str) : WFIndex (add_document b doc_id text) := by
  obtain ⟨h1, h2, h3, h4, h5, h6, h7⟩ := hb
  refine ⟨?_, ?_, ?_, ?_, ?_, ?_, ?_⟩
  · rw [add_document_word_docs]
    exact wdFold_keys_nodup h1
  · rw [add_document_index]
    exact ixFold_keys_nodup h2
  · rw [add_document_word_docs]
    exact wdFold_vals_nodup h3
  · rw [add_document_index]
    exact ixFold_vals_nodup h4
  · intro w hw
    rcases add_document_mem_keys.mp hw with h | h
    · exact h5 w h
    · exact clean_and_tokenize_wf h
  · intro w hw bg hbg
    rw [add_document_index]
    rcases add_document_mem_keys.mp hw with h | h
    · exact ixFold_lookupD_mono (h6 w h bg hbg)
    · exact ixFold_self h hbg
  · intro bg w hw
    rw [add_document_index] at hw
    rcases ixFold_sub hw with h | h
    · exact h7 bg w h
    · exact clean_and_tokenize_wf h

theorem built_wfIndex {b : BigramIndex} (hb : Built b) : WFIndex b := by
  induction hb with
  | base => exact wfIndex_empty
  | step b doc_id text _ ih => exact wfIndex_add_document ih doc_id text

/-! ### Round-trips between `joinSep`, `splitWs` and `pySplitSep` -/

theorem ne_space_of_not_ws {c : Char} (h : isPyWs c = false) : c ≠ ' ' := by
  intro hc
  rw [hc] at h
  exact absurd h (by decide)

theorem joinSep_cons₂ (sep : Str) (t t2 : Str) (ts : List Str) :
    joinSep sep (t :: t2 :: ts) = t ++ sep ++ joinSep sep (t2 :: ts) := rfl

theorem splitWsAux_all_nonws {t : Str} (hws : ∀ c ∈ t, isPyWs c = false) :
    ∀ acc : Str, (acc ≠ [] ∨ t ≠ []) → splitWsAux t acc = [acc.reverse ++ t] := by
  induction t with
  | nil =>
    intro acc hne
    rcases hne with hne | hne
    · simp [splitWsAux, hne]
    · exact absurd rfl hne
  | cons c t' ih =>
    intro acc _
    have hc : isPyWs c = false := hws c (List.mem_cons_self _ _)
    simp only [splitWsAux, hc]
    rw [if_neg (by simp)]
    rw [ih (fun d hd => hws d (List.mem_cons_of_mem _ hd)) (c :: acc) (Or.inl (by simp))]
    simp

theorem splitWsAux_break {t : Str} (hws : ∀ c ∈ t, isPyWs c = false) (s : Str) :
    ∀ acc : Str, (acc ≠ [] ∨ t ≠ []) →
      splitWsAux (t ++ ' ' :: s) acc = (acc.reverse ++ t) :: splitWsAux s [] := by
  induction t with
  | nil =>
    intro acc hne
    rcases hne with hne | hne
    · simp only [List.nil_append, splitWsAux]
      rw [if_pos (by rfl), if_neg hne]
      simp
    · exact absurd rfl hne
  | cons c t' ih =>
    intro acc _
    have hc : isPyWs c = false := hws c (List.mem_cons_self _ _)
    simp only [List.cons_append, splitWsAux, hc]
    rw [if_neg (by simp)]
    rw [show List.append t' (' ' :: s) = t' ++ ' ' :: s from rfl]
    rw [ih (fun d hd => hws d (List.mem_cons_of_mem _ hd)) (c :: acc) (Or.inl (by simp))]
    simp

theorem splitWs_joinSep_space {toks : List Str}
    (hwf : ∀ t ∈ toks, t ≠ [] ∧ ∀ c ∈ t, isPyWs c = false) :
    splitWs (joinSep [' '] toks) = toks := by
  induction toks with
  | nil => rfl
  | cons t ts ih =>
    cases ts with
    | nil =>
      have h := hwf t (List.mem_cons_self _ _)
      show splitWsAux t [] = [t]
      rw [splitWsAux_all_nonws h.2 [] (Or.inr h.1)]
      simp
    | cons t2 ts' =>
      have h := hwf t (List.mem_cons_self _ _)
      rw [joinSep_cons₂]
      show splitWsAux (t ++ [' '] ++ joinSep [' '] (t2 :: ts')) [] = t :: t2 :: ts'
      rw [List.append_assoc, List.singleton_append]
      rw [splitWsAux_break h.2 _ [] (Or.inr h.1)]
      simp only [List.reverse_nil, List.nil_append]
      have := ih (fun u hu => hwf u (List.mem_cons_of_mem _ hu))
      exact congrArg (t :: ·) this

theorem space_mem_joinSep₂ (t t2 : Str) (ts : List Str) :
    ' ' ∈ joinSep [' '] (t :: t2 :: ts) := by
  rw [joinSep_cons₂]
  simp

theorem mem_joinSep_chars {sep : Str} {toks : List Str} {c : Char}
    (h : c ∈ joinSep sep toks) : c ∈ sep ∨ ∃ t ∈ toks, c ∈ t := by
  induction toks with
  | nil => cases h
  | cons t ts ih =>
    cases ts with
    | nil => exact Or.inr ⟨t, List.mem_cons_self _ _, h⟩
    | cons t2 ts' =>
      rw [joinSep_cons₂] at h
      rcases List.mem_append.mp h with h' | h'
      · rcases List.mem_append.mp h' with h'' | h''
        · exact Or.inr ⟨t, List.mem_cons_self _ _, h''⟩
        · exact Or.inl h''
      · rcases ih h' with h'' | ⟨u, hu, hc⟩
        · exact Or.inl h''
        · exact Or.inr ⟨u, List.mem_cons_of_mem _ hu, hc⟩

theorem isPre_append_self : ∀ (p r : Str), isPre p (p ++ r) = true := by
  intro p
  induction p with
  | nil => intro r; rfl
  | cons a as ih =>
    intro r
    show (a == a && isPre as (as ++ r)) = true
    rw [ih r]
    simp

theorem isPre_cons_ne {sp : Str} {c : Char} (rest : Str) (hc : c ≠ ' ') :
    isPre (' ' :: sp) (c :: rest) = false := by
  show (' ' == c && isPre sp rest) = false
  have : (' ' == c) = false := by
    rw [beq_eq_false_iff_ne]
    exact Ne.symm hc
  rw [this]
  rfl

theorem splitSepAux_no_sep {sp : Str} :
    ∀ (s acc : Str), (∀ c ∈ s, c ≠ ' ') →
      splitSepAux (' ' :: sp) s acc = [acc.reverse ++ s] := by
  intro s
  induction s with
  | nil =>
    intro acc _
    simp [splitSepAux]
  | cons c rest ih =>
    intro acc hs
    have hc : c ≠ ' ' := hs c (List.mem_cons_self _ _)
    rw [splitSepAux]
    rw [dif_neg (by
      rw [isPre_cons_ne rest hc]
      simp)]
    rw [ih (c :: acc) (fun d hd => hs d (List.mem_cons_of_mem _ hd))]
    simp

theorem splitSepAux_cut {sp : Str} {t : Str} (ht : ∀ c ∈ t, c ≠ ' ') (r : Str) :
    ∀ acc : Str,
      splitSepAux (' ' :: sp) (t ++ (' ' :: sp) ++ r) acc =
        (acc.reverse ++ t) :: splitSepAux (' ' :: sp) r [] := by
  induction t with
  | nil =>
    intro acc
    simp only [List.nil_append, List.cons_append]
    rw [splitSepAux]
    rw [dif_pos (by
      constructor
      · simp
      · show isPre (' ' :: sp) ((' ' :: sp) ++ r) = true
        exact isPre_append_self _ r)]
    congr 1
    · simp
    · congr 1
      show List.drop (' ' :: sp).length ((' ' :: sp) ++ r) = r
      rw [List.drop_left]
  | cons c t' ih =>
    intro acc
    have hc : c ≠ ' ' := ht c (List.mem_cons_self _ _)
    simp only [List.cons_append]
    rw [splitSepAux]
    rw [dif_neg (by
      rw [isPre_cons_ne _ hc]
      simp)]
    have := ih (fun d hd => ht d (List.mem_cons_of_mem _ hd)) (c :: acc)
    simp only [List.cons_append] at this
    rw [this]
    simp

theorem pySplitSep_joinSep {sp : Str} {toks : List Str} (hne : toks ≠ [])
    (ht : ∀ t ∈ toks, ∀ c ∈ t, c ≠ ' ') :
    pySplitSep (joinSep (' ' :: sp) toks) (' ' :: sp) = toks := by
  induction toks with
  | nil => exact absurd rfl hne
  | cons t ts ih =>
    cases ts with
    | nil =>
      show splitSepAux (' ' :: sp) t [] = [t]
      rw [splitSepAux_no_sep t [] (ht t (List.mem_cons_self _ _))]
      simp
    | cons t2 ts' =>
      rw [joinSep_cons₂]
      show splitSepAux (' ' :: sp) (t ++ (' ' :: sp) ++ joinSep (' ' :: sp) (t2 :: ts')) []
        = t :: t2 :: ts'
      rw [splitSepAux_cut (ht t (List.mem_cons_self _ _)) _ []]
      simp only [List.reverse_nil, List.nil_append]
      have := ih (by simp) (fun u hu => ht u (List.mem_cons_of_mem _ hu))
      exact congrArg (t :: ·) this

/-! ### The type1 query path -/

theorem sepAnd_eq : sepAnd = ' ' :: ('a' :: 'n' :: 'd' :: ' ' :: []) := by decide

theorem sepAnd_lower_fixed : ∀ c ∈ sepAnd, pyCharLower c = c := by decide

/-- The keywords `type1_query` ends up looping over are exactly the normalized
tokens of the query text (or the single empty keyword when there are none):
rejoining the cleaned tokens with `" and "` and splitting again is the
identity on whitespace-free tokens. -/
theorem type1_keywords {toks : List Str}
    (hwf : ∀ t ∈ toks, t ≠ [] ∧ ∀ c ∈ t, isPyWs c = false ∧ pyCharLower c = c) :
    pySplitSep
      (pyLower
        (if ' ' ∈ joinSep [' '] toks then joinSep sepAnd (splitWs (joinSep [' '] toks))
         else joinSep [' '] toks))
      sepAnd = if toks = [] then [([] : Str)] else toks := by
  cases toks with
  | nil =>
    rw [if_neg (by simp [joinSep])]
    rw [if_pos rfl]
    show splitSepAux sepAnd (pyLower (joinSep [' '] [])) [] = [[]]
    simp [joinSep, pyLower, splitSepAux]
  | cons t ts =>
    have hwt := hwf t (List.mem_cons_self _ _)
    cases ts with
    | nil =>
      have hsp : ' ' ∉ t := fun hmem =>
        absurd ((hwt.2 ' ' hmem).1) (by decide)
      rw [show joinSep [' '] [t] = t from rfl]
      rw [if_neg hsp]
      rw [pyLower_fixed (fun c hc => (hwt.2 c hc).2)]
      rw [if_neg (by simp)]
      rw [sepAnd_eq]
      show splitSepAux _ t [] = [t]
      rw [splitSepAux_no_sep t [] (fun c hc => ne_space_of_not_ws (hwt.2 c hc).1)]
      simp
    | cons t2 ts' =>
      rw [if_pos (space_mem_joinSep₂ t t2 ts')]
      rw [splitWs_joinSep_space (fun u hu => ⟨(hwf u hu).1, fun c hc => ((hwf u hu).2 c hc).1⟩)]
      rw [pyLower_fixed (fun c hc => by
        rcases mem_joinSep_chars hc with h | ⟨u, hu, hcu⟩
        · exact sepAnd_lower_fixed c h
        · exact ((hwf u hu).2 c hcu).2)]
      rw [if_neg (by simp)]
      rw [sepAnd_eq]
      exact pySplitSep_joinSep (by simp)
        (fun u hu c hc => ne_space_of_not_ws ((hwf u hu).2 c hc).1)

theorem type1Loop_none {b : BigramIndex} {kws : List Str}
    (h : ∃ kw ∈ kws, pyLookup b.word_docs kw = none) :
    ∀ res first, type1Loop b kws res first = none := by
  induction kws with
  | nil =>
    obtain ⟨kw, hk, _⟩ := h
    cases hk
  | cons kw rest ih =>
    intro res first
    obtain ⟨kw', hk', hnone⟩ := h
    rcases List.mem_cons.mp hk' with rfl | hk''
    · simp [type1Loop, hnone]
    · cases hl : pyLookup b.word_docs kw with
      | none => simp [type1Loop, hl]
      | some postings =>
        simp only [type1Loop, hl]
        split
        · exact ih ⟨kw', hk'', hnone⟩ _ _
        · exact ih ⟨kw', hk'', hnone⟩ _ _

theorem type1Loop_all_present {b : BigramIndex} :
    ∀ {kws : List Str}, (∀ kw ∈ kws, pyLookup b.word_docs kw ≠ none) →
    ∀ res, ∃ r, type1Loop b kws res false = some r ∧
      ∀ d, d ∈ r ↔ d ∈ res ∧ ∀ kw ∈ kws, d ∈ lookupD b.word_docs kw := by
  intro kws
  induction kws with
  | nil =>
    intro _ res
    exact ⟨res, rfl, fun d => by simp⟩
  | cons kw rest ih =>
    intro hall res
    have hkw := hall kw (List.mem_cons_self _ _)
    cases hl : pyLookup b.word_docs kw with
    | none => exact absurd hl hkw
    | some postings =>
      obtain ⟨r, hr, hmem⟩ :=
        ih (fun k hk => hall k (List.mem_cons_of_mem _ hk)) (intersect res postings)
      refine ⟨r, ?_, ?_⟩
      · simp only [type1Loop, hl]
        rw [if_neg (by simp)]
        exact hr
      · intro d
        rw [hmem d, mem_intersect]
        have hlook : lookupD b.word_docs kw = postings := by simp [lookupD, hl]
        constructor
        · rintro ⟨⟨hres, hpost⟩, hrest⟩
          refine ⟨hres, fun k hk => ?_⟩
          rcases List.mem_cons.mp hk with rfl | hk'
          · rw [hlook]
            exact hpost
          · exact hrest k hk'
        · rintro ⟨hres, hforall⟩
          refine ⟨⟨hres, ?_⟩, fun k hk => hforall k (List.mem_cons_of_mem _ hk)⟩
          have h0 := hforall kw (List.mem_cons_self _ _)
          rw [hlook] at h0
          exact h0

theorem type1Loop_seed {b : BigramIndex} {kw : Str} {rest : List Str}
    {postings : List Nat} (hl : pyLookup b.word_docs kw = some postings)
    (res : List Nat) :
    type1Loop b (kw :: rest) res true = type1Loop b rest postings false := by
  simp [type1Loop, hl]

/-- Membership characterization of `type1_query` when the keyword list is the
token list, all of whose entries are present in the index. -/
theorem type1Loop_start_mem {b : BigramIndex} {kws : List Str} (hne : kws ≠ [])
    (hall : ∀ kw ∈ kws, pyLookup b.word_docs kw ≠ none) :
    ∃ r, type1Loop b kws [] true = some r ∧
      ∀ d, d ∈ r ↔ ∀ kw ∈ kws, d ∈ lookupD b.word_docs kw := by
  cases kws with
  | nil => exact absurd rfl hne
  | cons kw rest =>
    have hkw := hall kw (List.mem_cons_self _ _)
    cases hl : pyLookup b.word_docs kw with
    | none => exact absurd hl hkw
    | some postings =>
      obtain ⟨r, hr, hmem⟩ :=
        type1Loop_all_present (fun k hk => hall k (List.mem_cons_of_mem _ hk)) postings
      refine ⟨r, by rw [type1Loop_seed hl]; exact hr, fun d => ?_⟩
      rw [hmem d]
      have hlook : lookupD b.word_docs kw = postings := by simp [lookupD, hl]
      constructor
      · rintro ⟨hpost, hrest⟩
        intro k hk
        rcases List.mem_cons.mp hk with rfl | hk'
        · rw [hlook]
          exact hpost
        · exact hrest k hk'
      · intro hforall
        refine ⟨?_, fun k hk => hforall k (List.mem_cons_of_mem _ hk)⟩
        have h0 := hforall kw (List.mem_cons_self _ _)
        rw [hlook] at h0
        exact h0

/-! ### Sortedness of every query path -/

theorem type1_query_sorted (b : BigramIndex) (q : Str) :
    List.Sorted (· ≤ ·) (type1_query b q) := by
  unfold type1_query
  split
  · exact List.sorted_nil
  · exact pySort_sorted _

theorem type2_query_sorted (b : BigramIndex) (q : Str) :
    List.Sorted (· ≤ ·) (type2_query b q) :=
  pySort_sorted _

theorem wildcard_search_sorted (b : BigramIndex) (p : Str) :
    List.Sorted (· ≤ ·) (wildcard_search b p) := by
  unfold wildcard_search
  split
  · split
    · exact List.sorted_nil
    · split
      · exact List.sorted_nil
      · exact pySort_sorted _
  · exact List.sorted_nil

/-- Claim C7: for every query-type tag and every raw text, `process_query`
returns a sequence of document ids sorted in ascending order; this holds for
type1, type2, type3 and unrecognized tags alike. -/
theorem claim_C7 (b : BigramIndex) (query_type query_text : Str) :
    List.Sorted (· ≤ ·) (process_query b query_type query_text) := by
  unfold process_query
  split
  · exact type1_query_sorted _ _
  · split
    · exact type2_query_sorted _ _
    · split
      · exact wildcard_search_sorted _ _
      · exact List.sorted_nil

/-- Claim C8: `wildcard_search` returns the empty list for every pattern
without a `*`, and for the bare pattern `"*"` (empty prefix and suffix): a
bare wildcard matches nothing and never enumerates the vocabulary. -/
theorem claim_C8 (b : BigramIndex) (pattern : Str)
    (h : '*' ∉ pattern ∨ pattern = ['*']) :
    wildcard_search b pattern = [] := by
  rcases h with h | rfl
  · unfold wildcard_search
    rw [if_neg h]
  · rfl

theorem claim_C8_witness :
    wildcard_search emptyIndex ('a' :: 'b' :: []) = [] ∧
    wildcard_search emptyIndex ('*' :: []) = [] :=
  ⟨claim_C8 emptyIndex _ (Or.inl (by decide)),
   claim_C8 emptyIndex _ (Or.inr rfl)⟩

/-- Claim C9: for every query-type tag outside `{"type1", "type2", "type3"}`
and every raw query text, `process_query` returns the empty list (the model is
a total function, so no error is raised). -/
theorem claim_C9 (b : BigramIndex) (query_type query_text : Str)
    (h1 : query_type ≠ "type1".toList) (h2 : query_type ≠ "type2".toList)
    (h3 : query_type ≠ "type3".toList) :
    process_query b query_type query_text = [] := by
  unfold process_query
  rw [if_neg h1, if_neg h2, if_neg h3]

theorem claim_C9_witness :
    process_query emptyIndex ("type9").toList ("wheat").toList = [] :=
  claim_C9 emptyIndex _ _ (by decide) (by decide) (by decide)

/-- Claim C4: every `add_document` call preserves the cross-index invariant
that every token appearing in any bigram's posting set is also a key of the
inverted index, so the `word_docs[word]` lookup in `wildcard_search`'s final
union step always finds an existing key on an index built solely through
`add_document`. -/
theorem claim_C4 (b : BigramIndex) (doc_id : Nat) (text : Str)
    (h : BigramTokensIndexed b) :
    BigramTokensIndexed (add_document b doc_id text) := by
  intro bg w hw
  rw [add_document_index] at hw
  rcases ixFold_sub hw with h' | h'
  · exact add_document_mem_keys.mpr (Or.inl (h bg w h'))
  · exact add_document_mem_keys.mpr (Or.inr h')

theorem claim_C4_witness :
    BigramTokensIndexed (add_document emptyIndex 1 ("wheat").toList) :=
  claim_C4 emptyIndex 1 ("wheat").toList (by
    intro bg w hw
    simp [emptyIndex, lookupD, pyLookup] at hw)

/-! ### The posting invariant of a built corpus -/

theorem buildIndex_lookupD_mem {docs : List (Nat × Str)} {t : Str} {d : Nat} :
    d ∈ lookupD (buildIndex docs).word_docs t ↔
      ∃ p ∈ docs, p.1 = d ∧ t ∈ clean_and_tokenize p.2 := by
  have hgen : ∀ (docs : List (Nat × Str)) (b : BigramIndex),
      d ∈ lookupD (docs.foldl (fun b p => add_document b p.1 p.2) b).word_docs t ↔
        d ∈ lookupD b.word_docs t ∨ ∃ p ∈ docs, p.1 = d ∧ t ∈ clean_and_tokenize p.2 := by
    intro docs
    induction docs with
    | nil =>
      intro b
      simp
    | cons p rest ih =>
      intro b
      simp only [List.foldl_cons]
      rw [ih, add_document_lookupD_mem]
      constructor
      · rintro ((h | ⟨ht, rfl⟩) | ⟨q, hq, hqd, hqt⟩)
        · exact Or.inl h
        · exact Or.inr ⟨p, List.mem_cons_self _ _, rfl, ht⟩
        · exact Or.inr ⟨q, List.mem_cons_of_mem _ hq, hqd, hqt⟩
      · rintro (h | ⟨q, hq, hqd, hqt⟩)
        · exact Or.inl (Or.inl h)
        · rcases List.mem_cons.mp hq with rfl | hq'
          · exact Or.inl (Or.inr ⟨hqt, hqd.symm⟩)
          · exact Or.inr ⟨q, hq', hqd, hqt⟩
  rw [buildIndex, hgen]
  simp [emptyIndex, lookupD, pyLookup]

theorem nodup_fst_eq {α β : Type} {l : List (α × β)} (h : (l.map Prod.fst).Nodup)
    {p q : α × β} (hp : p ∈ l) (hq : q ∈ l) (hpq : p.1 = q.1) : p = q := by
  induction l with
  | nil => cases hp
  | cons x rest ih =>
    simp only [List.map_cons, List.nodup_cons] at h
    rcases List.mem_cons.mp hp with rfl | hp'
    · rcases List.mem_cons.mp hq with rfl | hq'
      · rfl
      · exact absurd (by rw [hpq]; exact List.mem_map_of_mem Prod.fst hq') h.1
    · rcases List.mem_cons.mp hq with rfl | hq'
      · exact absurd (by rw [← hpq]; exact List.mem_map_of_mem Prod.fst hp') h.1
      · exact ih h.2 hp' hq'

/-- Claim C3: after ingesting a corpus with pairwise-distinct document ids,
one `add_document(id, text)` call each, a document id lies in `lookup(t)` iff
the token `t` occurs in the normalized token sequence of that document's
ingested text. -/
theorem claim_C3 (docs : List (Nat × Str)) (hnd : (docs.map Prod.fst).Nodup)
    (p : Nat × Str) (hp : p ∈ docs) (t : Str) :
    p.1 ∈ lookupD (buildIndex docs).word_docs t ↔ t ∈ clean_and_tokenize p.2 := by
  rw [buildIndex_lookupD_mem]
  constructor
  · rintro ⟨q, hq, hqd, hqt⟩
    have hqp : q = p := nodup_fst_eq hnd hq hp hqd
    exact hqp ▸ hqt
  · intro ht
    exact ⟨p, hp, rfl, ht⟩

theorem claim_C3_witness :
    ((1, ("wheat prices rise").toList).1 ∈
        lookupD
          (buildIndex
            [(1, ("wheat prices rise").toList),
             (2, ("wheat exports fall").toList)]).word_docs
          ("wheat").toList ↔
      ("wheat").toList ∈ clean_and_tokenize ("wheat prices rise").toList) :=
  claim_C3 _ (by decide) _ (by decide) _

/-! ### Snapshot round-trip -/

theorem load_lookup_equiv {α : Type} [DecidableEq α]
    {snap orig : List (Str × List α)}
    (h : List.Forall₂ (fun x y => x.1 = y.1 ∧ x.2.Perm y.2) snap orig) (k : Str) :
    SameMembers (lookupD (snap.map (fun kv => (kv.1, kv.2.dedup))) k)
      (lookupD orig k) := by
  induction h with
  | nil => intro v; exact Iff.rfl
  | @cons x y l1 l2 hxy hrest ih =>
    intro v
    by_cases hk : x.1 = k
    · have hy : y.1 = k := hxy.1 ▸ hk
      simp only [List.map_cons]
      unfold lookupD pyLookup
      rw [if_pos hk, if_pos hy]
      simp only [Option.getD_some]
      rw [List.mem_dedup]
      exact hxy.2.mem_iff
    · have hy : ¬(y.1 = k) := fun he => hk (hxy.1 ▸ he)
      simp only [List.map_cons]
      unfold lookupD pyLookup
      rw [if_neg hk, if_neg hy]
      exact ih v

theorem save_index_words_eq (b : BigramIndex) : save_index_words b = b.word_docs := by
  unfold save_index_words
  simp

theorem save_index_bigrams_eq (b : BigramIndex) : save_index_bigrams b = b.index := by
  unfold save_index_bigrams
  simp

/-- Claim C5: deserializing any snapshot whose arrays are per-key permutations
of the arrays produced by serializing an index yields a logically equal index:
every token maps to the same posting set and every bigram to the same token
set, independent of serialized array ordering. -/
theorem claim_C5 (b : BigramIndex) (snapW : List (Str × List Nat))
    (snapB : List (Str × List Str))
    (hW : List.Forall₂ (fun x y => x.1 = y.1 ∧ x.2.Perm y.2) snapW (save_index_words b))
    (hB : List.Forall₂ (fun x y => x.1 = y.1 ∧ x.2.Perm y.2) snapB (save_index_bigrams b)) :
    DictEquiv (load_words snapW) b.word_docs ∧ DictEquiv (load_bigrams snapB) b.index := by
  constructor
  · intro k
    rw [save_index_words_eq] at hW
    exact load_lookup_equiv hW k
  · intro k
    rw [save_index_bigrams_eq] at hB
    exact load_lookup_equiv hB k

/-- A two-document example corpus over the token `"ab"`. -/
def exampleIndexAB : BigramIndex :=
  add_document (add_document emptyIndex 8 ('a' :: 'b' :: [])) 1 ('a' :: 'b' :: [])

theorem claim_C5_witness :
    DictEquiv (load_words [(('a' :: 'b' :: []), [1, 8])]) exampleIndexAB.word_docs ∧
    DictEquiv
      (load_bigrams
        [(('$' :: 'a' :: []), [('a' :: 'b' :: [])]),
         (('a' :: 'b' :: []), [('a' :: 'b' :: [])]),
         (('b' :: '$' :: []), [('a' :: 'b' :: [])])])
      exampleIndexAB.index :=
  claim_C5 exampleIndexAB _ _
    (by
      have h : save_index_words exampleIndexAB = [(('a' :: 'b' :: []), [8, 1])] := by
        decide
      rw [h]
      exact List.Forall₂.cons ⟨rfl, List.Perm.swap 8 1 []⟩ List.Forall₂.nil)
    (by
      have h : save_index_bigrams exampleIndexAB =
          [(('$' :: 'a' :: []), [('a' :: 'b' :: [])]),
           (('a' :: 'b' :: []), [('a' :: 'b' :: [])]),
           (('b' :: '$' :: []), [('a' :: 'b' :: [])])] := by
        decide
      rw [h]
      exact List.Forall₂.cons ⟨rfl, List.Perm.refl _⟩
        (List.Forall₂.cons ⟨rfl, List.Perm.refl _⟩
          (List.Forall₂.cons ⟨rfl, List.Perm.refl _⟩ List.Forall₂.nil)))

/-- Claim C6: conjunctive (type1) evaluation of a query with at least one
normalized token returns the empty list whenever any one of its tokens is
absent as a key of the inverted index, regardless of the other tokens'
posting lists; and when all tokens are present, a document id belongs to the
result exactly when it belongs to every token's posting list (the
intersection). -/
theorem claim_C6 (b : BigramIndex) (query_text : Str)
    (hne : clean_and_tokenize query_text ≠ []) :
    ((∃ t ∈ clean_and_tokenize query_text, pyLookup b.word_docs t = none) →
      process_query b ("type1").toList query_text = []) ∧
    ((∀ t ∈ clean_and_tokenize query_text, pyLookup b.word_docs t ≠ none) →
      ∀ d : Nat, d ∈ process_query b ("type1").toList query_text ↔
        ∀ t ∈ clean_and_tokenize query_text, d ∈ lookupD b.word_docs t) := by
  have hwf : ∀ t ∈ clean_and_tokenize query_text,
      t ≠ [] ∧ ∀ c ∈ t, isPyWs c = false ∧ pyCharLower c = c := by
    intro t ht
    obtain ⟨h1, h2⟩ := clean_and_tokenize_wf ht
    exact ⟨h1, fun c hc => ⟨(h2 c hc).1, (h2 c hc).2.1⟩⟩
  constructor
  · intro habs
    unfold process_query
    rw [if_pos rfl]
    unfold type1_query
    rw [type1_keywords hwf, if_neg hne]
    rw [type1Loop_none habs [] true]
  · intro hall d
    unfold process_query
    rw [if_pos rfl]
    unfold type1_query
    rw [type1_keywords hwf, if_neg hne]
    obtain ⟨r, hr, hmem⟩ := type1Loop_start_mem hne hall
    rw [hr]
    show d ∈ pySort r ↔ _
    rw [mem_pySort]
    exact hmem d

/-- The spec's concrete example corpus: doc 1 = "wheat prices rise", doc 2 =
"wheat exports fall". -/
def exampleIndexWheat : BigramIndex :=
  buildIndex
    [(1, ("wheat prices rise").toList), (2, ("wheat exports fall").toList)]

theorem claim_C6_witness :
    (process_query exampleIndexWheat ("type1").toList ("wheat zebra").toList = []) ∧
    (1 ∈ process_query exampleIndexWheat ("type1").toList ("wheat prices").toList ↔
      ∀ t ∈ clean_and_tokenize ("wheat prices").toList,
        1 ∈ lookupD exampleIndexWheat.word_docs t) :=
  ⟨(claim_C6 exampleIndexWheat (("wheat zebra").toList) (by decide)).1 (by decide),
   (claim_C6 exampleIndexWheat (("wheat prices").toList) (by decide)).2 (by decide) 1⟩

/-- Claim C1 counterexample: serializing the index obtained by adding token
`"b"` under document 8 and then under document 1 writes the posting array
`[8, 1]`, which is not sorted ascending (this is also CPython's actual
iteration order for the set `{8, 1}`). -/
theorem claim_C1_counterexample :
    ¬ ∀ kv ∈ save_index_words
        (add_document (add_document emptyIndex 8 ('b' :: [])) 1 ('b' :: [])),
      List.Sorted (· ≤ ·) kv.2 := by
  decide

/-- Claim C1 (amended): `save_index_to_files` writes, for every key of either
artifact, an array that enumerates the posting set exactly — duplicate-free
and with the same members as the in-memory set — but in the set's iteration
order, with no sorting applied. -/
theorem claim_C1 (b : BigramIndex) (hb : Built b) :
    (∀ kv ∈ save_index_words b, kv.2.Nodup ∧
      ∀ d : Nat, d ∈ kv.2 ↔ d ∈ lookupD b.word_docs kv.1) ∧
    (∀ kv ∈ save_index_bigrams b, kv.2.Nodup ∧
      ∀ w : Str, w ∈ kv.2 ↔ w ∈ lookupD b.index kv.1) := by
  obtain ⟨h1, h2, h3, h4, _, _, _⟩ := built_wfIndex hb
  constructor
  · intro kv hkv
    rw [save_index_words_eq] at hkv
    refine ⟨h3 kv hkv, fun d => ?_⟩
    rw [lookupD_eq_of_mem h1 hkv]
  · intro kv hkv
    rw [save_index_bigrams_eq] at hkv
    refine ⟨h4 kv hkv, fun w => ?_⟩
    rw [lookupD_eq_of_mem h2 hkv]

theorem claim_C1_witness :
    (∀ kv ∈ save_index_words
        (add_document (add_document emptyIndex 8 ('b' :: [])) 1 ('b' :: [])),
      kv.2.Nodup ∧
      ∀ d : Nat, d ∈ kv.2 ↔ d ∈ lookupD
        (add_document (add_document emptyIndex 8 ('b' :: [])) 1 ('b' :: [])).word_docs
        kv.1) ∧
    (∀ kv ∈ save_index_bigrams
        (add_document (add_document emptyIndex 8 ('b' :: [])) 1 ('b' :: [])),
      kv.2.Nodup ∧
      ∀ w : Str, w ∈ kv.2 ↔ w ∈ lookupD
        (add_document (add_document emptyIndex 8 ('b' :: [])) 1 ('b' :: [])).index
        kv.1) :=
  claim_C1 _ (Built.step _ 1 _ (Built.step _ 8 _ Built.base))

/-! ### Evaluating `wildcard_search` once the candidate set is known -/

theorem wildcard_search_none (b : BigramIndex) (pattern : Str)
    (hstar : '*' ∈ pattern)
    (hc : wildcardCandidates b (splitFirstStar (pyLower pattern)).1
        (splitFirstStar (pyLower pattern)).2 = none) :
    wildcard_search b pattern = [] := by
  unfold wildcard_search
  rw [if_pos hstar, hc]

theorem wildcard_search_some (b : BigramIndex) (pattern : Str) (cands : List Str)
    (hstar : '*' ∈ pattern)
    (hc : wildcardCandidates b (splitFirstStar (pyLower pattern)).1
        (splitFirstStar (pyLower pattern)).2 = some cands) :
    wildcard_search b pattern =
      if cands = [] then []
      else
        pySort (((cands.filter (fun w => globMatch pattern w)).foldl
          (fun acc w => (lookupD b.word_docs w).foldl setAdd acc)) []) := by
  unfold wildcard_search
  rw [if_pos hstar, hc]

/-! ### Candidates only ever come out of the bigram index -/

theorem bigramFold_sub {b : BigramIndex} :
    ∀ (bgs : List Str) (acc : Option (List Str)),
      (∀ c, acc = some c → ∀ w ∈ c, ∃ bg, w ∈ lookupD b.index bg) →
      ∀ cands,
        bgs.foldl
          (fun cand bg =>
            match cand with
            | none => some (lookupD b.index bg)
            | some c => some (c.filter (fun w => decide (w ∈ lookupD b.index bg))))
          acc = some cands →
        ∀ w ∈ cands, ∃ bg, w ∈ lookupD b.index bg := by
  intro bgs
  induction bgs with
  | nil =>
    intro acc hacc cands h w hw
    exact hacc cands h w hw
  | cons bg rest ih =>
    intro acc hacc cands h w hw
    refine ih _ ?_ cands h w hw
    intro c hc w' hw'
    cases acc with
    | none =>
      have hc' : some (lookupD b.index bg) = some c := hc
      injection hc' with hc''
      exact ⟨bg, hc'' ▸ hw'⟩
    | some c0 =>
      have hc' : some (c0.filter (fun w => decide (w ∈ lookupD b.index bg))) = some c := hc
      injection hc' with hc''
      subst hc''
      exact hacc c0 rfl w' (List.mem_of_mem_filter hw')

theorem bigramIntersection_sub {b : BigramIndex} {bgs : List Str}
    {cands : List Str} (h : bigramIntersection b bgs = some cands) :
    ∀ w ∈ cands, ∃ bg, w ∈ lookupD b.index bg := by
  unfold bigramIntersection at h
  exact bigramFold_sub bgs none (fun c hc => by cases hc) cands h

theorem preCandidates_sub {b : BigramIndex} {pre : Str} {cands : List Str}
    (h : preCandidates b pre = some cands) :
    ∀ w ∈ cands, ∃ bg, w ∈ lookupD b.index bg := by
  unfold preCandidates at h
  split at h
  · exact bigramIntersection_sub h
  · cases h

theorem wildcardCandidates_sub {b : BigramIndex} {pre suf : Str}
    {cands : List Str} (h : wildcardCandidates b pre suf = some cands) :
    ∀ w ∈ cands, ∃ bg, w ∈ lookupD b.index bg := by
  unfold wildcardCandidates at h
  split at h
  · unfold combineCandidates at h
    cases hp : preCandidates b pre with
    | none =>
      rw [hp] at h
      cases hs : bigramIntersection b (adjPairs (suf ++ ['$'])) with
      | none =>
        rw [hs] at h
        have h' : (none : Option (List Str)) = some cands := h
        cases h'
      | some sc =>
        rw [hs] at h
        have h' : some sc = some cands := h
        injection h' with h''
        subst h''
        exact bigramIntersection_sub hs
    | some c =>
      rw [hp] at h
      cases hs : bigramIntersection b (adjPairs (suf ++ ['$'])) with
      | none =>
        rw [hs] at h
        have h' : some c = some cands := h
        injection h' with h''
        subst h''
        exact preCandidates_sub hp
      | some sc =>
        rw [hs] at h
        have h' : some (c.filter (fun w => decide (w ∈ sc))) = some cands := h
        injection h' with h''
        subst h''
        intro w hw
        exact preCandidates_sub hp w (List.mem_of_mem_filter hw)
  · exact preCandidates_sub h

/-- Characters with special meaning inside a Python regular expression; the
regex model is exact for patterns whose non-`*` characters avoid them. -/
def regexSpecials : Str :=
  ['.', '^', '$', '+', '?', '(', ')', '[', ']', Char.ofNat 123, Char.ofNat 125,
   Char.ofNat 92, '|']

/-- Claim C10: any wildcard pattern made of `*` and plain literal characters
that contains a `*` and at least one uppercase ASCII letter returns the empty
list on every index built through `add_document`: candidates are generated
from the lowercased pattern, but the verifying regular expression keeps the
original case, and every indexed token is lowercase, so no candidate passes
verification. -/
theorem claim_C10 (b : BigramIndex) (hb : Built b) (p : Str)
    (hstar : '*' ∈ p) (hlit : ∀ c ∈ p, c ≠ '*' → c ∉ regexSpecials)
    (hup : ∃ c ∈ p, c ∈ upperChars) :
    wildcard_search b p = [] := by
  obtain ⟨_, _, _, _, _, _, h7⟩ := built_wfIndex hb
  cases hc : wildcardCandidates b (splitFirstStar (pyLower p)).1
      (splitFirstStar (pyLower p)).2 with
  | none => exact wildcard_search_none b p hstar hc
  | some cands =>
    rw [wildcard_search_some b p cands hstar hc]
    by_cases hce : cands = []
    · rw [if_pos hce]
    · rw [if_neg hce]
      have hmatches : cands.filter (fun w => globMatch p w) = [] := by
        rw [List.filter_eq_nil_iff]
        intro w hw
        obtain ⟨bg, hbg⟩ := wildcardCandidates_sub hc w hw
        have hwf := h7 bg w hbg
        obtain ⟨u, hu, hupper⟩ := hup
        have hune : u ≠ '*' := fun he => absurd (he ▸ hupper) (by decide)
        intro hglob
        have humem : u ∈ w := globMatch_literal_mem hglob u hu hune
        exact absurd ((hwf.2 u humem).2.1) (pyCharLower_ne_of_upper hupper)
      rw [hmatches]
      rfl

theorem claim_C10_witness :
    wildcard_search (add_document emptyIndex 1 ("wheat").toList)
      ('W' :: '*' :: 't' :: []) = [] :=
  claim_C10 _ (Built.step _ 1 _ Built.base) _ (by decide) (by decide) (by decide)

/-- Claim C2 counterexample: for the single-character token `"b"` (indexed
under document 1), the wildcard query `"b*b"` built as `w[:1] + "*" + w[-1:]`
returns the empty list even though document 1 contains `"b"`: the anchored
regex `^b.*b$` needs two characters and rejects the token itself. -/
theorem claim_C2_counterexample :
    ('b' :: []) ∈ dictKeys (add_document emptyIndex 1 ('b' :: [])).word_docs ∧
    1 ∈ lookupD (add_document emptyIndex 1 ('b' :: [])).word_docs ('b' :: []) ∧
    1 ∉ wildcard_search (add_document emptyIndex 1 ('b' :: []))
        (('b' :: []).take 1 ++ '*' :: ('b' :: []).drop (('b' :: []).length - 1)) := by
  decide

/-- Claim C2 (amended): for an index built through `add_document` and a token
`w` of length at least two that is a key of the inverted index, every document
in `w`'s posting list survives the wildcard query `w[:1] + "*" + w[-1:]`: the
token's boundary bigrams keep it among the candidates and the anchored regex
accepts it (for a single-character token the regex `^c.*c$` cannot match the
token itself, as the counterexample shows). -/
theorem claim_C2 (b : BigramIndex) (hb : Built b) (w : Str)
    (hw : w ∈ dictKeys b.word_docs) (hlen : 2 ≤ w.length) (d : Nat)
    (hd : d ∈ lookupD b.word_docs w) :
    d ∈ wildcard_search b (w.take 1 ++ '*' :: w.drop (w.length - 1)) := by
  obtain ⟨_, _, _, _, h5, h6, _⟩ := built_wfIndex hb
  obtain ⟨hne, hchars⟩ := h5 w hw
  obtain ⟨w0, t, rfl⟩ : ∃ w0 t, w = w0 :: t := by
    cases w with
    | nil => exact absurd rfl hne
    | cons a t => exact ⟨a, t, rfl⟩
  obtain ⟨mid, wl, rfl⟩ : ∃ mid wl, t = mid ++ [wl] := by
    rcases List.eq_nil_or_concat t with rfl | ⟨mid, wl, ht⟩
    · simp at hlen
    · exact ⟨mid, wl, by rw [ht, List.concat_eq_append]⟩
  have hw0 := hchars w0 (List.mem_cons_self _ _)
  have hwl := hchars wl (by simp)
  have hw0s : w0 ≠ '*' := fun he =>
    hw0.2.2 (he ▸ (by decide : ('*' : Char) ∈ defaultPunctuations))
  have hwls : wl ≠ '*' := fun he =>
    hwl.2.2 (he ▸ (by decide : ('*' : Char) ∈ defaultPunctuations))
  have hpat : (w0 :: (mid ++ [wl])).take 1 ++
      '*' :: (w0 :: (mid ++ [wl])).drop ((w0 :: (mid ++ [wl])).length - 1) =
      [w0, '*', wl] := by
    have h1 : (w0 :: (mid ++ [wl])).length - 1 = mid.length + 1 := by
      simp
    rw [h1, List.drop_succ_cons, List.drop_left]
    rfl
  rw [hpat]
  have hlow : pyLower [w0, '*', wl] = [w0, '*', wl] := by
    apply pyLower_fixed
    intro c hc
    rcases List.mem_cons.mp hc with rfl | hc
    · exact hw0.2.1
    rcases List.mem_cons.mp hc with rfl | hc
    · decide
    rcases List.mem_cons.mp hc with rfl | hc
    · exact hwl.2.1
    · cases hc
  have hsplit : splitFirstStar [w0, '*', wl] = ([w0], [wl]) := by
    simp [splitFirstStar, hw0s]
  have hcand : wildcardCandidates b (splitFirstStar (pyLower [w0, '*', wl])).1
      (splitFirstStar (pyLower [w0, '*', wl])).2 =
      some ((lookupD b.index ['$', w0]).filter
        (fun v => decide (v ∈ lookupD b.index [wl, '$']))) := by
    rw [hlow, hsplit]
    simp [wildcardCandidates, preCandidates, bigramIntersection, combineCandidates,
      adjPairs]
  rw [wildcard_search_some b [w0, '*', wl] _ (by simp) hcand]
  have hmem1 : (w0 :: (mid ++ [wl])) ∈ lookupD b.index ['$', w0] :=
    h6 _ hw _ (bigrams_head_mem w0 (mid ++ [wl]))
  have hmem2 : (w0 :: (mid ++ [wl])) ∈ lookupD b.index [wl, '$'] :=
    h6 _ hw _ (bigrams_last_mem w0 mid wl)
  have hcmem : (w0 :: (mid ++ [wl])) ∈
      (lookupD b.index ['$', w0]).filter
        (fun v => decide (v ∈ lookupD b.index [wl, '$'])) := by
    rw [List.mem_filter]
    exact ⟨hmem1, by simpa using hmem2⟩
  rw [if_neg (List.ne_nil_of_mem hcmem)]
  have hglob : globMatch [w0, '*', wl] (w0 :: (mid ++ [wl])) = true := by
    rw [globMatch_lit_cons _ _ _ hw0s]
    rw [globMatch_star_of_suffix mid (globMatch_single hwls)]
    simp
  rw [mem_pySort, mem_docFold]
  refine Or.inr ⟨w0 :: (mid ++ [wl]), ?_, hd⟩
  rw [List.mem_filter]
  exact ⟨hcmem, hglob⟩

theorem claim_C2_witness :
    1 ∈ wildcard_search (add_document emptyIndex 1 ("wheat").toList)
      (("wheat").toList.take 1 ++
        '*' :: ("wheat").toList.drop (("wheat").toList.length - 1)) :=
  claim_C2 _ (Built.step _ 1 _ Built.base) _ (by decide) (by decide) 1 (by decide)
